import Mathlib

/-!
Verification of the firefly 2D-lighting core: the visibility slicer
(`push_vertices` in src/prepare.rs), the per-light pairing loop
(`prepare_data` in src/prepare.rs), and the bin-buffer interaction.

Floating-point (`f32`) values are modelled by real numbers; the slicer walk
itself is stated over an arbitrary linear ordered field so that its control
flow can also be exercised on rationals.  Machine `u32` indices are modelled
by natural numbers; the bit-packing of `OccluderPointer.index` uses `Nat`
shifts and ors, which cannot overflow 32 bits for the bit positions used.
-/

namespace Firefly

/-- Two-dimensional vector, modelling bevy's `Vec2`. -/
structure Vec2 (α : Type) where
  x : α
  y : α
deriving DecidableEq, Repr

/-- Mutable slice record of the slicer walk, from `OccluderSlice` in
src/prepare.rs (start vertex, run length, termination mode, start/end angle).
The Rust `Default` derive zero-initialises every field. -/
structure OccluderSlice (α : Type) where
  start : ℕ
  length : ℕ
  term : ℕ
  start_angle : α
  end_angle : α
deriving DecidableEq, Repr

/-- Zero-initialised slice, modelling `OccluderSlice::default()`. -/
def defaultSlice (α : Type) [Zero α] : OccluderSlice α := ⟨0, 0, 0, 0, 0⟩

/-- A ring vertex paired with its angle relative to the light, from `Vertex`
in src/prepare.rs. -/
structure Vertex (α : Type) where
  index : ℕ
  angle : α
deriving DecidableEq, Repr

/-- Emitted record, from `OccluderPointer` in src/prepare.rs (the packed
`index` word, minimum vertex index, run length, distance to the light). -/
structure OccluderPointer (α : Type) where
  index : ℕ
  min_v : ℕ
  length : ℕ
  distance : α
deriving DecidableEq, Repr

/-- One `bins.add_occluder(pointer, start, end)` call recorded with its
angular interval. -/
structure BinEntry (α : Type) where
  pointer : OccluderPointer α
  startAngle : α
  endAngle : α
deriving DecidableEq, Repr

/-- The packed `index` word of an emitted `OccluderPointer`:
`(1 << 31) | (term << 29) | (rev << 28) | index` for polygonal encoding,
`(0 << 31) | index` for round encoding (src/prepare.rs lines 443-445). -/
def packIndex (poly rev : Bool) (term index : ℕ) : ℕ :=
  match poly with
  | true => (1 <<< 31) ||| (term <<< 29) ||| ((if rev then 1 else 0) <<< 28) ||| index
  | false => (0 <<< 31) ||| index

/-- The captured parameters of the `push_slice` closure in `push_vertices`:
`PI`, softness, distance, the `rev` and `poly` flags, the minimum-vertex-index
offset `start_vertex`, and the occluder identifier `index`. -/
structure SliceCfg (α : Type) where
  pi : α
  softness : α
  distance : α
  rev : Bool
  poly : Bool
  startVertex : ℕ
  occIndex : ℕ

/-- The `push_slice` closure (src/prepare.rs lines 436-466): a slice is
emitted only if its length exceeds 1; the stored interval is widened by the
softness and clamped at `PI` (termination mode 1) or `-PI` (mode 2). -/
def pushSlice [LinearOrderedField α] (cfg : SliceCfg α) (slice : OccluderSlice α) :
    List (BinEntry α) :=
  if slice.length > 1 then
    let occluder : OccluderPointer α :=
      { index := packIndex cfg.poly cfg.rev slice.term cfg.occIndex
        min_v := slice.start + cfg.startVertex
        length := slice.length
        distance := cfg.distance }
    if slice.term = 0 then
      [⟨occluder, slice.start_angle - cfg.softness, slice.end_angle + cfg.softness⟩]
    else if slice.term = 1 then
      [⟨occluder, slice.start_angle - cfg.softness, cfg.pi⟩]
    else if slice.term = 2 then
      [⟨occluder, -cfg.pi, slice.end_angle + cfg.softness⟩]
    else []
  else []

/-- State of the slicer walk: the `last` vertex seen and the current slice. -/
structure WalkState (α : Type) where
  last : Option (Vertex α)
  slice : OccluderSlice α
deriving DecidableEq, Repr

/-- One iteration of the vertex loop of `push_vertices`
(src/prepare.rs lines 482-534), returning the new state together with the
entries inserted into the bin buffer during this iteration. -/
def sliceStep [LinearOrderedField α] (cfg : SliceCfg α) (st : WalkState α)
    (vertex : Vertex α) : WalkState α × List (BinEntry α) :=
  match st.last with
  | some last =>
    if (¬(|vertex.angle - last.angle| > cfg.pi) ∧ vertex.angle < last.angle) ∨
        ((|vertex.angle - last.angle| > cfg.pi) ∧ vertex.angle > last.angle) then
      (⟨some vertex, ⟨vertex.index, 1, 0, vertex.angle, vertex.angle⟩⟩,
        pushSlice cfg st.slice)
    else if ¬(|vertex.angle - last.angle| > cfg.pi) ∧ vertex.angle > last.angle then
      let s := if st.slice.length = 0 then { st.slice with start := vertex.index }
        else st.slice
      (⟨some vertex, { s with length := s.length + 1, end_angle := vertex.angle }⟩, [])
    else
      let s := if st.slice.length = 0 then { st.slice with start := vertex.index }
        else st.slice
      let s := { s with length := s.length + 1, term := 1 }
      (⟨some vertex, ⟨last.index, 2, 2, last.angle, vertex.angle⟩⟩, pushSlice cfg s)
  | none =>
    (⟨some vertex, ⟨vertex.index, 1, 0, vertex.angle, vertex.angle⟩⟩, [])

/-- The vertex loop of `push_vertices`, as explicit state passing: processes
the vertices in order, accumulating the inserted bin entries. -/
def walkAux [LinearOrderedField α] (cfg : SliceCfg α) (st : WalkState α) :
    List (Vertex α) → WalkState α × List (BinEntry α)
  | [] => (st, [])
  | v :: rest =>
    let p := sliceStep cfg st v
    let q := walkAux cfg p.1 rest
    (q.1, p.2 ++ q.2)

/-- The complete slicer walk: run the vertex loop from the zero-initialised
state, then perform the final `push_slice(&slice)` of src/prepare.rs
line 536. -/
def sliceWalk [LinearOrderedField α] (cfg : SliceCfg α) (vertices : List (Vertex α)) :
    List (BinEntry α) :=
  let r := walkAux cfg ⟨none, defaultSlice α⟩ vertices
  r.2 ++ pushSlice cfg r.1.slice

/-- Four-quadrant arctangent on the reals, modelling Rust's `f32::atan2`
(`y.atan2(x)`), with range contained in `[-pi, pi]`. -/
noncomputable def atan2 (y x : ℝ) : ℝ :=
  if 0 < x then Real.arctan (y / x)
  else if x < 0 then
    (if 0 ≤ y then Real.arctan (y / x) + Real.pi else Real.arctan (y / x) - Real.pi)
  else
    (if 0 < y then Real.pi / 2 else if y < 0 then -(Real.pi / 2) else 0)

/-- The vertex/angle list built by `push_vertices` (src/prepare.rs lines
468-471): each ring vertex is paired with its enumeration index and its
`atan2` angle relative to the light. -/
noncomputable def mkVertices (occluder_vertices : List (Vec2 ℝ)) (light_pos : Vec2 ℝ) :
    List (Vertex ℝ) :=
  occluder_vertices.enum.map fun p =>
    ⟨p.1, atan2 (p.2.y - light_pos.y) (p.2.x - light_pos.x)⟩

/-- The visibility slicer `push_vertices` of src/prepare.rs (lines 425-537):
computes the vertex angles, optionally reverses the traversal, walks the ring
and returns, in order, the `add_occluder` insertions made into the bin
buffer. -/
noncomputable def push_vertices (occluder_vertices : List (Vec2 ℝ)) (light_pos : Vec2 ℝ)
    (start_vertex index : ℕ) (softness distance : ℝ) (rev poly : Bool) :
    List (BinEntry ℝ) :=
  let vertices := mkVertices occluder_vertices light_pos
  let vertices := if rev then vertices.reverse else vertices
  sliceWalk ⟨Real.pi, softness, distance, rev, poly, start_vertex, index⟩ vertices

/-- Axis-aligned bounding box, modelling bevy's `Aabb2d`. -/
structure Aabb2 (α : Type) where
  min : Vec2 α
  max : Vec2 α

/-- Bevy's `Aabb2d::intersects`: the boxes overlap on both axes. -/
def Aabb2.intersects (a b : Aabb2 ℝ) : Prop :=
  a.min.x ≤ b.max.x ∧ b.min.x ≤ a.max.x ∧ a.min.y ≤ b.max.y ∧ b.min.y ≤ a.max.y

noncomputable instance (a b : Aabb2 ℝ) : Decidable (a.intersects b) := by
  unfold Aabb2.intersects
  exact inferInstance

/-- Modelled from the spec: the occluder shape variants of `Occluder2dShape`
(spec section 3), whose defining module occluders.rs is not under src/; the
`RoundRectangle` and `Polygon` constructors are also matched on in
src/prepare.rs. -/
inductive Occluder2dShape where
  | circle (radius : ℝ)
  | capsule (radius length : ℝ)
  | roundRectangle (width height radius : ℝ)
  | polygon (vertices : List (Vec2 ℝ))
  | polyline (vertices : List (Vec2 ℝ))

/-- The fields of `ExtractedPointLight` consumed by `prepare_data`
(src/prepare.rs): world position, range, and the `cast_shadows` flag. -/
structure ExtractedPointLight where
  pos : Vec2 ℝ
  range : ℝ
  cast_shadows : Bool

/-- The fields of `ExtractedOccluder` consumed by the pairing loop, together
with its GPU-buffer index components `RoundOccluderIndex` and
`PolyOccluderIndex` (queried alongside it in `prepare_data`). -/
structure ExtractedOccluder where
  shape : Occluder2dShape
  aabb : Aabb2 ℝ
  pos : Vec2 ℝ
  rot : ℝ
  round_index : Option ℕ
  poly_occluder_index : Option ℕ
  poly_vertex_index : Option ℕ

/-- The buffer-index presence conditions the per-occluder body of
`prepare_data` requires before invoking the slicer: the round index for a
round rectangle, the poly occluder and vertex indices otherwise. -/
def requiredIndicesPresent (o : ExtractedOccluder) : Prop :=
  match o.shape with
  | .roundRectangle _ _ _ => o.round_index.isSome = true
  | _ => o.poly_occluder_index.isSome = true ∧ o.poly_vertex_index.isSome = true

/-- Whether `prepare_data` invokes `push_vertices` for this occluder, from
the loop body in src/prepare.rs lines 285-366: the iteration is skipped when
the light's `cast_shadows` is off or the bounding boxes do not intersect, and
also when the needed GPU-buffer index components are absent. -/
noncomputable def occluderSliced (light : ExtractedPointLight) (light_aabb : Aabb2 ℝ)
    (o : ExtractedOccluder) : Bool :=
  if ¬(light.cast_shadows = true) ∨ ¬(o.aabb.intersects light_aabb) then false
  else
    match o.shape with
    | .roundRectangle _ _ _ => o.round_index.isSome
    | _ => o.poly_occluder_index.isSome && o.poly_vertex_index.isSome

/-- Componentwise minimum, modelling bevy's `Vec2::min`. -/
def Vec2.cmin (a b : Vec2 ℝ) : Vec2 ℝ := ⟨min a.x b.x, min a.y b.y⟩

/-- Componentwise maximum, modelling bevy's `Vec2::max`. -/
def Vec2.cmax (a b : Vec2 ℝ) : Vec2 ℝ := ⟨max a.x b.x, max a.y b.y⟩

/-- World-space rectangle, modelling bevy's `Rect`. -/
structure Rect where
  min : Vec2 ℝ
  max : Vec2 ℝ

/-- Bevy's `Rect::union_point`: the smallest rectangle containing both the
rectangle and the point. -/
def Rect.union_point (r : Rect) (p : Vec2 ℝ) : Rect :=
  ⟨r.min.cmin p, r.max.cmax p⟩

/-- Bevy's `Rect::intersect`: componentwise max of minima and min of maxima,
with the minimum collapsed onto the maximum so empty intersections yield an
empty rectangle. -/
def Rect.intersect (r s : Rect) : Rect :=
  let mn := r.min.cmax s.min
  let mx := r.max.cmin s.max
  ⟨mn.cmin mx, mx⟩

/-- Bevy's `Rect::contains`: the point lies within the bounds. -/
def Rect.contains (r : Rect) (p : Vec2 ℝ) : Prop :=
  r.min.x ≤ p.x ∧ r.min.y ≤ p.y ∧ p.x ≤ r.max.x ∧ p.y ≤ r.max.y

/-- The axis-aligned box of the light's range:
`Rect { min: light.pos - light.range, max: light.pos + light.range }`. -/
def rangeRect (pos : Vec2 ℝ) (range : ℝ) : Rect :=
  ⟨⟨pos.x - range, pos.y - range⟩, ⟨pos.x + range, pos.y + range⟩⟩

/-- The light's influence rectangle as computed by `prepare_data`
(src/prepare.rs lines 268-271): the camera rectangle is first extended to
contain the light position, then intersected with the range box. -/
def lightRect (camera_rect : Rect) (light_pos : Vec2 ℝ) (range : ℝ) : Rect :=
  (camera_rect.union_point light_pos).intersect (rangeRect light_pos range)

/-- The influence rectangle as the spec's words describe it (refinement
comparison definition, not from the source): the bounding box derived from
the light's range intersected with the camera-visible rectangle. -/
def specLightRect (camera_rect : Rect) (light_pos : Vec2 ℝ) (range : ℝ) : Rect :=
  (rangeRect light_pos range).intersect camera_rect

/-- Modelled from the spec: the per-light `BinBuffer` of buffers.rs, which is
not under src/.  Spec section 4.3: `reset` logically clears the contents,
`add_occluder` records an insertion, and the finalize/write step publishes
the one bulk upload for the frame.  `entries` is the current frame's
insertions in order; `written` is the last published contents. -/
structure BinBuffer (α : Type) where
  entries : List (BinEntry α)
  written : Option (List (BinEntry α))

/-- Modelled from the spec: `BinBuffer::reset` logically empties the buffer
(storage reuse is not observable here). -/
def BinBuffer.reset (b : BinBuffer α) : BinBuffer α := ⟨[], b.written⟩

/-- Modelled from the spec: `BinBuffer::add_occluder` records one insertion. -/
def BinBuffer.add (b : BinBuffer α) (e : BinEntry α) : BinBuffer α :=
  ⟨b.entries ++ [e], b.written⟩

/-- Modelled from the spec: the finalize/write step publishes the current
contents as the frame's bulk upload. -/
def BinBuffer.write (b : BinBuffer α) : BinBuffer α := ⟨b.entries, some b.entries⟩

/-- Observable bin-buffer operations, for stating the per-light ordering of
reset, insertions and the bulk write. -/
inductive BinEvent (α : Type) where
  | reset : BinEvent α
  | add (e : BinEntry α) : BinEvent α
  | write : BinEvent α

/-- Rust's `f32::clamp(0.0, 1.0)` on the reals. -/
noncomputable def clamp01 (x : ℝ) : ℝ := min (max x 0) 1

/-- The softness taken from the global config by `prepare_data`
(src/prepare.rs lines 280-283): absent softness is 0, present softness is
clamped to `[0, 1]`. -/
noncomputable def configSoftness (cfg_softness : Option ℝ) : ℝ :=
  match cfg_softness with
  | none => 0
  | some x => clamp01 x

/-- The per-light body of `prepare_data` (src/prepare.rs lines 260-369),
abstracted over `entriesFor`, the insertions the slicer performs for one
occluder at a given softness: compute the influence rectangle, reset the bin
buffer, process each surviving occluder, then perform the bulk write.  The
second component is the trace of bin-buffer operations in execution order. -/
noncomputable def processLight (entriesFor : ℝ → ExtractedOccluder → List (BinEntry ℝ))
    (camera_rect : Rect) (cfg_softness : Option ℝ) (light : ExtractedPointLight)
    (occluders : List ExtractedOccluder) (bins : BinBuffer ℝ) :
    BinBuffer ℝ × List (BinEvent ℝ) :=
  let light_rect := lightRect camera_rect light.pos light.range
  let light_aabb : Aabb2 ℝ := ⟨light_rect.min, light_rect.max⟩
  let softness := configSoftness cfg_softness
  let r := occluders.foldl
    (fun acc o =>
      if occluderSliced light light_aabb o then
        ((entriesFor softness o).foldl (fun b e => b.add e) acc.1,
          acc.2 ++ (entriesFor softness o).map BinEvent.add)
      else acc)
    (bins.reset, [BinEvent.reset])
  (r.1.write, r.2 ++ [BinEvent.write])

/-- The insertions belonging to one light's current frame: the concatenation,
over the occluders surviving the cull, of the slicer's insertions. -/
noncomputable def lightAdds (entriesFor : ℝ → ExtractedOccluder → List (BinEntry ℝ))
    (camera_rect : Rect) (cfg_softness : Option ℝ) (light : ExtractedPointLight)
    (occluders : List ExtractedOccluder) : List (BinEntry ℝ) :=
  let light_rect := lightRect camera_rect light.pos light.range
  let light_aabb : Aabb2 ℝ := ⟨light_rect.min, light_rect.max⟩
  occluders.foldl
    (fun acc o =>
      if occluderSliced light light_aabb o then
        acc ++ entriesFor (configSoftness cfg_softness) o
      else acc) []

/-- Emitted-entry property for the vertex-run fields: the entry's run is the
block of `e.pointer.length` consecutively traversed vertices at positions
`[i, i + length)` of the traversal list; `min_v` is the original ring index
of the run's first-traversed vertex `w1` plus the supplied offset, `length`
is the block length, and the stored angular interval is anchored to the
angles of the run's first vertex `w1` and last vertex `w2` — widened by the
softness, with the end pinned at `pi` for termination mode 1 and the start
pinned at `-pi` for mode 2. -/
def entryRunOk [LinearOrderedField α] (cfg : SliceCfg α) (vs : List (Vertex α))
    (e : BinEntry α) : Prop :=
  ∃ i L w1 w2, 2 ≤ L ∧ i + L ≤ vs.length ∧ vs[i]? = some w1 ∧
    vs[i + L - 1]? = some w2 ∧ e.pointer.length = L ∧
    e.pointer.min_v = w1.index + cfg.startVertex ∧
    ((e.startAngle = w1.angle - cfg.softness ∧
        e.endAngle = w2.angle + cfg.softness) ∨
      (e.startAngle = w1.angle - cfg.softness ∧ e.endAngle = cfg.pi) ∨
      (e.startAngle = -cfg.pi ∧ e.endAngle = w2.angle + cfg.softness))

/-- Walk-state invariant for the vertex-run bookkeeping: the `last` vertex is
the most recently traversed one, and the current slice consists of the final
`length` traversed vertices, with `start` the index of the earliest of them,
`start_angle` that earliest vertex's angle, and `end_angle` the angle of the
most recently traversed vertex (the run's last). -/
def walkStateOk (vs : List (Vertex α)) (st : WalkState α) : Prop :=
  (st.last = none → vs = [] ∧ st.slice.length = 0) ∧
  ∀ l, st.last = some l →
    vs[vs.length - 1]? = some l ∧
    ∃ i w, 1 ≤ st.slice.length ∧ i + st.slice.length = vs.length ∧
      vs[i]? = some w ∧ st.slice.start = w.index ∧
      st.slice.start_angle = w.angle ∧ st.slice.end_angle = l.angle

/-- The update of the current slice's start index performed at the head of
the increasing and wrapping branches when the run is empty
(`if slice.length == 0`, src/prepare.rs lines 499-501 and 507-509). -/
def stepSlice0 (s : OccluderSlice α) (v : Vertex α) : OccluderSlice α :=
  if s.length = 0 then { s with start := v.index } else s

/-! Helper lemmas about `atan2`. -/

theorem atan2_of_pos {y x : ℝ} (hx : 0 < x) : atan2 y x = Real.arctan (y / x) := by
  unfold atan2
  rw [if_pos hx]

theorem atan2_of_neg_nonneg {y x : ℝ} (hx : x < 0) (hy : 0 ≤ y) :
    atan2 y x = Real.arctan (y / x) + Real.pi := by
  unfold atan2
  rw [if_neg (by linarith), if_pos hx, if_pos hy]

theorem atan2_of_neg_neg {y x : ℝ} (hx : x < 0) (hy : y < 0) :
    atan2 y x = Real.arctan (y / x) - Real.pi := by
  unfold atan2
  rw [if_neg (by linarith), if_pos hx, if_neg (by linarith)]

theorem atan2_of_zero_pos {y : ℝ} (hy : 0 < y) : atan2 y 0 = Real.pi / 2 := by
  unfold atan2
  rw [if_neg (lt_irrefl 0), if_neg (lt_irrefl 0), if_pos hy]

theorem arctan_nonneg_of {x : ℝ} (h : 0 ≤ x) : 0 ≤ Real.arctan x := by
  have := Real.arctan_strictMono.monotone h
  rwa [Real.arctan_zero] at this

theorem arctan_nonpos_of {x : ℝ} (h : x ≤ 0) : Real.arctan x ≤ 0 := by
  have := Real.arctan_strictMono.monotone h
  rwa [Real.arctan_zero] at this

theorem atan2_bounds (y x : ℝ) : -Real.pi ≤ atan2 y x ∧ atan2 y x ≤ Real.pi := by
  have hpi := Real.pi_pos
  have h1 := Real.arctan_lt_pi_div_two (y / x)
  have h2 := Real.neg_pi_div_two_lt_arctan (y / x)
  rcases lt_trichotomy 0 x with hx | hx | hx
  · rw [atan2_of_pos hx]
    constructor <;> linarith
  · subst hx
    unfold atan2
    rw [if_neg (lt_irrefl 0), if_neg (lt_irrefl 0)]
    rcases lt_trichotomy 0 y with hy | hy | hy
    · rw [if_pos hy]
      constructor <;> linarith
    · rw [if_neg (by linarith), if_neg (by linarith)]
      constructor <;> linarith
    · rw [if_neg (by linarith), if_pos hy]
      constructor <;> linarith
  · rcases le_or_lt 0 y with hy | hy
    · rw [atan2_of_neg_nonneg hx hy]
      have hdiv : y / x ≤ 0 := div_nonpos_iff.mpr (Or.inl ⟨hy, hx.le⟩)
      have := arctan_nonpos_of hdiv
      constructor <;> linarith
    · rw [atan2_of_neg_neg hx hy]
      have hdiv : 0 < y / x := div_pos_iff.mpr (Or.inr ⟨hy, hx⟩)
      have := arctan_nonneg_of hdiv.le
      constructor <;> linarith

/-! Helper lemmas characterising `pushSlice` and `sliceStep`. -/

theorem pushSlice_short [LinearOrderedField α] (cfg : SliceCfg α) (s : OccluderSlice α)
    (h : ¬ 1 < s.length) : pushSlice cfg s = [] := by
  unfold pushSlice
  rw [if_neg h]

theorem pushSlice_term0 [LinearOrderedField α] (cfg : SliceCfg α) (s : OccluderSlice α)
    (h : 1 < s.length) (ht : s.term = 0) :
    pushSlice cfg s =
      [⟨⟨packIndex cfg.poly cfg.rev s.term cfg.occIndex, s.start + cfg.startVertex,
          s.length, cfg.distance⟩,
        s.start_angle - cfg.softness, s.end_angle + cfg.softness⟩] := by
  unfold pushSlice
  rw [if_pos h, if_pos ht]

theorem pushSlice_term1 [LinearOrderedField α] (cfg : SliceCfg α) (s : OccluderSlice α)
    (h : 1 < s.length) (ht : s.term = 1) :
    pushSlice cfg s =
      [⟨⟨packIndex cfg.poly cfg.rev s.term cfg.occIndex, s.start + cfg.startVertex,
          s.length, cfg.distance⟩,
        s.start_angle - cfg.softness, cfg.pi⟩] := by
  unfold pushSlice
  rw [if_pos h, if_neg (by simp [ht]), if_pos ht]

theorem pushSlice_term2 [LinearOrderedField α] (cfg : SliceCfg α) (s : OccluderSlice α)
    (h : 1 < s.length) (ht : s.term = 2) :
    pushSlice cfg s =
      [⟨⟨packIndex cfg.poly cfg.rev s.term cfg.occIndex, s.start + cfg.startVertex,
          s.length, cfg.distance⟩,
        -cfg.pi, s.end_angle + cfg.softness⟩] := by
  unfold pushSlice
  rw [if_pos h, if_neg (by simp [ht]), if_neg (by simp [ht]), if_pos ht]

theorem mem_pushSlice [LinearOrderedField α] {cfg : SliceCfg α} {s : OccluderSlice α}
    {e : BinEntry α} (he : e ∈ pushSlice cfg s) :
    1 < s.length ∧
      e.pointer = ⟨packIndex cfg.poly cfg.rev s.term cfg.occIndex,
        s.start + cfg.startVertex, s.length, cfg.distance⟩ := by
  unfold pushSlice at he
  split_ifs at he with h h0 h1 h2 <;> simp at he <;> subst he <;> exact ⟨h, rfl⟩

theorem mem_pushSlice_cases [LinearOrderedField α] {cfg : SliceCfg α}
    {s : OccluderSlice α} {e : BinEntry α} (he : e ∈ pushSlice cfg s) :
    1 < s.length ∧
      e.pointer = ⟨packIndex cfg.poly cfg.rev s.term cfg.occIndex,
        s.start + cfg.startVertex, s.length, cfg.distance⟩ ∧
      ((s.term = 0 ∧ e.startAngle = s.start_angle - cfg.softness ∧
          e.endAngle = s.end_angle + cfg.softness) ∨
        (s.term = 1 ∧ e.startAngle = s.start_angle - cfg.softness ∧
          e.endAngle = cfg.pi) ∨
        (s.term = 2 ∧ e.startAngle = -cfg.pi ∧
          e.endAngle = s.end_angle + cfg.softness)) := by
  unfold pushSlice at he
  split_ifs at he with h h0 h1 h2 <;> simp at he <;> subst he
  · exact ⟨h, rfl, Or.inl ⟨h0, rfl, rfl⟩⟩
  · exact ⟨h, rfl, Or.inr (Or.inl ⟨h1, rfl, rfl⟩)⟩
  · exact ⟨h, rfl, Or.inr (Or.inr ⟨h2, rfl, rfl⟩)⟩

theorem sliceStep_none [LinearOrderedField α] (cfg : SliceCfg α) (s : OccluderSlice α)
    (v : Vertex α) :
    sliceStep cfg ⟨none, s⟩ v = (⟨some v, ⟨v.index, 1, 0, v.angle, v.angle⟩⟩, []) := rfl

theorem sliceStep_dec [LinearOrderedField α] (cfg : SliceCfg α) (s : OccluderSlice α)
    (l v : Vertex α) (h1 : |v.angle - l.angle| ≤ cfg.pi) (h2 : v.angle < l.angle) :
    sliceStep cfg ⟨some l, s⟩ v =
      (⟨some v, ⟨v.index, 1, 0, v.angle, v.angle⟩⟩, pushSlice cfg s) := by
  unfold sliceStep
  dsimp only
  rw [if_pos (Or.inl ⟨not_lt.mpr h1, h2⟩)]

theorem sliceStep_inc [LinearOrderedField α] (cfg : SliceCfg α) (s : OccluderSlice α)
    (l v : Vertex α) (h1 : |v.angle - l.angle| ≤ cfg.pi) (h2 : l.angle < v.angle)
    (h0 : s.length ≠ 0) :
    sliceStep cfg ⟨some l, s⟩ v =
      (⟨some v, { s with length := s.length + 1, end_angle := v.angle }⟩, []) := by
  unfold sliceStep
  dsimp only
  have hA : ¬((¬(|v.angle - l.angle| > cfg.pi) ∧ v.angle < l.angle) ∨
      ((|v.angle - l.angle| > cfg.pi) ∧ v.angle > l.angle)) := by
    rintro (⟨-, hlt⟩ | ⟨hl, -⟩)
    · exact absurd h2 (not_lt.mpr hlt.le)
    · exact absurd hl (not_lt.mpr h1)
  rw [if_neg hA, if_pos ⟨not_lt.mpr h1, h2⟩]
  simp [h0]

theorem sliceStep_wrap [LinearOrderedField α] (cfg : SliceCfg α) (s : OccluderSlice α)
    (l v : Vertex α) (h1 : cfg.pi < |v.angle - l.angle|) (h2 : v.angle < l.angle)
    (h0 : s.length ≠ 0) :
    sliceStep cfg ⟨some l, s⟩ v =
      (⟨some v, ⟨l.index, 2, 2, l.angle, v.angle⟩⟩,
        pushSlice cfg { s with length := s.length + 1, term := 1 }) := by
  unfold sliceStep
  dsimp only
  have hA : ¬((¬(|v.angle - l.angle| > cfg.pi) ∧ v.angle < l.angle) ∨
      ((|v.angle - l.angle| > cfg.pi) ∧ v.angle > l.angle)) := by
    rintro (⟨hl, -⟩ | ⟨-, hgt⟩)
    · exact hl h1
    · exact absurd h2 (not_lt.mpr hgt.le)
  have hB : ¬(¬(|v.angle - l.angle| > cfg.pi) ∧ v.angle > l.angle) := by
    rintro ⟨hl, -⟩
    exact hl h1
  rw [if_neg hA, if_neg hB]
  simp [h0]

theorem sliceStep_eq_angle [LinearOrderedField α] (cfg : SliceCfg α) (s : OccluderSlice α)
    (l v : Vertex α) (h2 : v.angle = l.angle) (h0 : s.length ≠ 0) :
    sliceStep cfg ⟨some l, s⟩ v =
      (⟨some v, ⟨l.index, 2, 2, l.angle, v.angle⟩⟩,
        pushSlice cfg { s with length := s.length + 1, term := 1 }) := by
  unfold sliceStep
  dsimp only
  have hA : ¬((¬(|v.angle - l.angle| > cfg.pi) ∧ v.angle < l.angle) ∨
      ((|v.angle - l.angle| > cfg.pi) ∧ v.angle > l.angle)) := by
    rintro (⟨-, hlt⟩ | ⟨-, hgt⟩)
    · exact absurd h2 (ne_of_lt hlt)
    · exact absurd h2 (ne_of_gt hgt)
  have hB : ¬(¬(|v.angle - l.angle| > cfg.pi) ∧ v.angle > l.angle) := by
    rintro ⟨-, hgt⟩
    exact absurd h2 (ne_of_gt hgt)
  rw [if_neg hA, if_neg hB]
  simp [h0]

theorem walkAux_nil [LinearOrderedField α] (cfg : SliceCfg α) (st : WalkState α) :
    walkAux cfg st [] = (st, []) := rfl

theorem walkAux_cons [LinearOrderedField α] (cfg : SliceCfg α) (st : WalkState α)
    (v : Vertex α) (rest : List (Vertex α)) :
    walkAux cfg st (v :: rest) =
      ((walkAux cfg (sliceStep cfg st v).1 rest).1,
        (sliceStep cfg st v).2 ++ (walkAux cfg (sliceStep cfg st v).1 rest).2) := rfl

theorem sliceStep_total [LinearOrderedField α] (cfg : SliceCfg α) (l : Vertex α)
    (s : OccluderSlice α) (v : Vertex α) :
    sliceStep cfg ⟨some l, s⟩ v =
        (⟨some v, ⟨v.index, 1, 0, v.angle, v.angle⟩⟩, pushSlice cfg s) ∨
      sliceStep cfg ⟨some l, s⟩ v =
        (⟨some v, ⟨(stepSlice0 s v).start, (stepSlice0 s v).length + 1,
            (stepSlice0 s v).term, (stepSlice0 s v).start_angle, v.angle⟩⟩, []) ∨
      sliceStep cfg ⟨some l, s⟩ v =
        (⟨some v, ⟨l.index, 2, 2, l.angle, v.angle⟩⟩,
          pushSlice cfg ⟨(stepSlice0 s v).start, (stepSlice0 s v).length + 1, 1,
            (stepSlice0 s v).start_angle, (stepSlice0 s v).end_angle⟩) := by
  by_cases h1 : (¬(|v.angle - l.angle| > cfg.pi) ∧ v.angle < l.angle) ∨
      ((|v.angle - l.angle| > cfg.pi) ∧ v.angle > l.angle)
  · left
    unfold sliceStep
    dsimp only
    rw [if_pos h1]
  · by_cases h2 : ¬(|v.angle - l.angle| > cfg.pi) ∧ v.angle > l.angle
    · right; left
      unfold sliceStep stepSlice0
      dsimp only
      rw [if_neg h1, if_pos h2]
    · right; right
      unfold sliceStep stepSlice0
      dsimp only
      rw [if_neg h1, if_neg h2]

theorem walkAux_sound [LinearOrderedField α] (cfg : SliceCfg α) (Q : Vertex α → Prop)
    (I : WalkState α → Prop) (P : BinEntry α → Prop)
    (hstep : ∀ st v, I st → Q v → I (sliceStep cfg st v).1)
    (hemit : ∀ st v, I st → Q v → ∀ e ∈ (sliceStep cfg st v).2, P e) :
    ∀ (rest : List (Vertex α)) (st : WalkState α), I st → (∀ v ∈ rest, Q v) →
      I (walkAux cfg st rest).1 ∧ ∀ e ∈ (walkAux cfg st rest).2, P e := by
  intro rest
  induction rest with
  | nil =>
    intro st hI _
    refine ⟨hI, ?_⟩
    intro e he
    rw [walkAux_nil] at he
    simp at he
  | cons v rest ih =>
    intro st hI hQ
    have hQv : Q v := hQ v (List.mem_cons_self v rest)
    have hI1 : I (sliceStep cfg st v).1 := hstep st v hI hQv
    have hrec := ih (sliceStep cfg st v).1 hI1 (fun w hw => hQ w (List.mem_cons_of_mem v hw))
    constructor
    · rw [walkAux_cons]
      exact hrec.1
    · intro e he
      rw [walkAux_cons] at he
      rcases List.mem_append.mp he with h | h
      · exact hemit st v hI hQv e h
      · exact hrec.2 e h

theorem entryRunOk_append [LinearOrderedField α] {cfg : SliceCfg α}
    {vs more : List (Vertex α)} {e : BinEntry α} (h : entryRunOk cfg vs e) :
    entryRunOk cfg (vs ++ more) e := by
  obtain ⟨i, L, w1, w2, hL, hiL, h1, h2, h3, h4, h5⟩ := h
  refine ⟨i, L, w1, w2, hL, ?_, ?_, ?_, h3, h4, h5⟩
  · rw [List.length_append]
    omega
  · rw [List.getElem?_append, if_pos (by omega)]
    exact h1
  · rw [List.getElem?_append, if_pos (by omega)]
    exact h2

theorem sliceStep_run [LinearOrderedField α] (cfg : SliceCfg α) (p : List (Vertex α))
    (st : WalkState α) (v : Vertex α) (hst : walkStateOk p st) :
    walkStateOk (p ++ [v]) (sliceStep cfg st v).1 ∧
    ∀ e ∈ (sliceStep cfg st v).2, entryRunOk cfg (p ++ [v]) e := by
  obtain ⟨lastOpt, s⟩ := st
  cases lastOpt with
  | none =>
    obtain ⟨hp, hlen⟩ := hst.1 rfl
    subst hp
    rw [sliceStep_none]
    constructor
    · refine ⟨fun h => by simp at h, fun l hl => ?_⟩
      obtain rfl : v = l := by simpa using hl
      exact ⟨by simp, 0, v, le_refl 1, by simp, by simp, rfl, rfl, rfl⟩
    · intro e he
      simp at he
  | some l =>
    obtain ⟨hlast, i, w, hs1, hs2, hget, hstart, hsangle, hend⟩ := hst.2 l rfl
    dsimp only at hlast hs1 hs2 hget hstart hsangle hend
    have hplen : 1 ≤ p.length := by
      by_contra hc
      rw [List.getElem?_eq_none (by omega)] at hlast
      exact Option.noConfusion hlast
    have hiw : i < p.length := by omega
    have hs0 : stepSlice0 s v = s := by
      unfold stepSlice0
      rw [if_neg (by omega)]
    have hconcat : (p ++ [v])[(p ++ [v]).length - 1]? = some v := by
      rw [List.length_append]
      simpa using List.getElem?_concat_length p v
    have hgetp : (p ++ [v])[i]? = some w := by
      rw [List.getElem?_append, if_pos hiw]
      exact hget
    have hgetl : (p ++ [v])[p.length - 1]? = some l := by
      rw [List.getElem?_append, if_pos (by omega)]
      exact hlast
    have hgetv : (p ++ [v])[p.length]? = some v := by
      simpa using List.getElem?_concat_length p v
    rcases sliceStep_total cfg l s v with heq | heq | heq <;> rw [heq]
    · constructor
      · refine ⟨fun h => by simp at h, fun l' hl' => ?_⟩
        obtain rfl : v = l' := by simpa using hl'
        exact ⟨hconcat, p.length, v, le_refl 1, by simp [List.length_append],
          hgetv, rfl, rfl, rfl⟩
      · intro e he
        obtain ⟨hlen1, hptr, hiv⟩ := mem_pushSlice_cases he
        refine ⟨i, s.length, w, l, by omega, ?_, hgetp, ?_, ?_, ?_, ?_⟩
        · simp only [List.length_append, List.length_singleton]
          omega
        · rw [show i + s.length - 1 = p.length - 1 by omega]
          exact hgetl
        · rw [hptr]
        · rw [hptr]
          dsimp only
          rw [hstart]
        · rcases hiv with ⟨-, ha, hb⟩ | ⟨-, ha, hb⟩ | ⟨-, ha, hb⟩
          · exact Or.inl ⟨by rw [ha, hsangle], by rw [hb, hend]⟩
          · exact Or.inr (Or.inl ⟨by rw [ha, hsangle], hb⟩)
          · exact Or.inr (Or.inr ⟨ha, by rw [hb, hend]⟩)
    · rw [hs0]
      constructor
      · refine ⟨fun h => by simp at h, fun l' hl' => ?_⟩
        obtain rfl : v = l' := by simpa using hl'
        refine ⟨hconcat, i, w, by dsimp only; omega, ?_, hgetp, ?_, ?_, rfl⟩
        · simp only [List.length_append, List.length_singleton]
          omega
        · dsimp only
          exact hstart
        · dsimp only
          exact hsangle
      · intro e he
        simp at he
    · rw [hs0]
      constructor
      · refine ⟨fun h => by simp at h, fun l' hl' => ?_⟩
        obtain rfl : v = l' := by simpa using hl'
        refine ⟨hconcat, p.length - 1, l, by dsimp only; omega, ?_, ?_, rfl, rfl, rfl⟩
        · simp only [List.length_append, List.length_singleton]
          omega
        · rw [List.getElem?_append, if_pos (by omega)]
          exact hlast
      · intro e he
        obtain ⟨hlen1, hptr, hiv⟩ := mem_pushSlice_cases he
        dsimp only at hlen1 hptr hiv
        refine ⟨i, s.length + 1, w, v, by omega, ?_, hgetp, ?_, ?_, ?_, ?_⟩
        · simp only [List.length_append, List.length_singleton]
          omega
        · rw [show i + (s.length + 1) - 1 = p.length by omega]
          exact hgetv
        · rw [hptr]
        · rw [hptr]
          dsimp only
          rw [hstart]
        · rcases hiv with ⟨h0, -, -⟩ | ⟨-, ha, hb⟩ | ⟨h2, -, -⟩
          · exact absurd h0 (by norm_num)
          · exact Or.inr (Or.inl ⟨by rw [ha, hsangle], hb⟩)
          · exact absurd h2 (by norm_num)

theorem walkAux_run [LinearOrderedField α] (cfg : SliceCfg α) :
    ∀ (rest p : List (Vertex α)) (st : WalkState α), walkStateOk p st →
      walkStateOk (p ++ rest) (walkAux cfg st rest).1 ∧
      ∀ e ∈ (walkAux cfg st rest).2, entryRunOk cfg (p ++ rest) e := by
  intro rest
  induction rest with
  | nil =>
    intro p st h
    rw [walkAux_nil]
    refine ⟨by simpa using h, ?_⟩
    intro e he
    simp at he
  | cons v rest ih =>
    intro p st hst
    have hstep := sliceStep_run cfg p st v hst
    have hrec := ih (p ++ [v]) (sliceStep cfg st v).1 hstep.1
    rw [List.append_cons p v rest]
    constructor
    · rw [walkAux_cons]
      exact hrec.1
    · intro e he
      rw [walkAux_cons] at he
      rcases List.mem_append.mp he with h | h
      · exact entryRunOk_append (hstep.2 e h)
      · exact hrec.2 e h

theorem sliceWalk_run [LinearOrderedField α] (cfg : SliceCfg α) (vs : List (Vertex α)) :
    ∀ e ∈ sliceWalk cfg vs, entryRunOk cfg vs e := by
  intro e he
  have h0 : walkStateOk ([] : List (Vertex α)) (⟨none, defaultSlice α⟩ : WalkState α) :=
    ⟨fun _ => ⟨rfl, rfl⟩, fun l hl => Option.noConfusion hl⟩
  have hrun := walkAux_run cfg vs [] ⟨none, defaultSlice α⟩ h0
  rw [List.nil_append] at hrun
  unfold sliceWalk at he
  rcases List.mem_append.mp he with h | h
  · exact hrun.2 e h
  · obtain ⟨hlen1, hptr, hiv⟩ := mem_pushSlice_cases h
    set stF := (walkAux cfg ⟨none, defaultSlice α⟩ vs).1 with hstF
    cases hl : stF.last with
    | none =>
      obtain ⟨-, hlen0⟩ := hrun.1.1 hl
      omega
    | some l =>
      obtain ⟨hlast, i, w, hs1, hs2, hget, hstart, hsangle, hend⟩ := hrun.1.2 l hl
      refine ⟨i, stF.slice.length, w, l, by omega, by omega, hget, ?_, ?_, ?_, ?_⟩
      · rw [show i + stF.slice.length - 1 = vs.length - 1 by omega]
        exact hlast
      · rw [hptr]
      · rw [hptr]
        dsimp only
        rw [hstart]
      · rcases hiv with ⟨-, ha, hb⟩ | ⟨-, ha, hb⟩ | ⟨-, ha, hb⟩
        · exact Or.inl ⟨by rw [ha, hsangle], by rw [hb, hend]⟩
        · exact Or.inr (Or.inl ⟨by rw [ha, hsangle], hb⟩)
        · exact Or.inr (Or.inr ⟨ha, by rw [hb, hend]⟩)


theorem mkVertices_length (ring : List (Vec2 ℝ)) (pos : Vec2 ℝ) :
    (mkVertices ring pos).length = ring.length := by
  simp [mkVertices]

theorem mkVertices_get (ring : List (Vec2 ℝ)) (pos : Vec2 ℝ) (i : ℕ) :
    (mkVertices ring pos)[i]? =
      Option.map (fun v => (⟨i, atan2 (v.y - pos.y) (v.x - pos.x)⟩ : Vertex ℝ))
        ring[i]? := by
  unfold mkVertices
  rw [List.getElem?_map, List.getElem?_enum]
  cases ring[i]? <;> simp

theorem mkVertices_index {ring : List (Vec2 ℝ)} {pos : Vec2 ℝ} {i : ℕ} {w : Vertex ℝ}
    (h : (mkVertices ring pos)[i]? = some w) : w.index = i := by
  rw [mkVertices_get] at h
  cases hr : ring[i]? with
  | none =>
    rw [hr] at h
    simp at h
  | some a =>
    rw [hr] at h
    simp at h
    rw [← h]

theorem mkVertices_reverse_index {ring : List (Vec2 ℝ)} {pos : Vec2 ℝ} {i : ℕ}
    {w : Vertex ℝ} (h : (mkVertices ring pos).reverse[i]? = some w) :
    i < ring.length ∧ w.index = ring.length - 1 - i := by
  have hi : i < (mkVertices ring pos).reverse.length := by
    by_contra hc
    rw [List.getElem?_eq_none (by omega)] at h
    exact Option.noConfusion h
  rw [List.length_reverse, mkVertices_length] at hi
  rw [List.getElem?_reverse (by rwa [mkVertices_length])] at h
  rw [mkVertices_length] at h
  exact ⟨hi, mkVertices_index h⟩

theorem mkVertices_get_some {ring : List (Vec2 ℝ)} {pos : Vec2 ℝ} {i : ℕ}
    {w : Vertex ℝ} (h : (mkVertices ring pos)[i]? = some w) :
    ∃ a, ring[i]? = some a ∧ w.index = i ∧
      w.angle = atan2 (a.y - pos.y) (a.x - pos.x) := by
  rw [mkVertices_get] at h
  cases hr : ring[i]? with
  | none =>
    rw [hr] at h
    simp at h
  | some a =>
    rw [hr] at h
    simp at h
    exact ⟨a, rfl, by rw [← h], by rw [← h]⟩

theorem mkVertices_reverse_get_some {ring : List (Vec2 ℝ)} {pos : Vec2 ℝ} {i : ℕ}
    {w : Vertex ℝ} (h : (mkVertices ring pos).reverse[i]? = some w) :
    i < ring.length ∧ ∃ a, ring[ring.length - 1 - i]? = some a ∧
      w.index = ring.length - 1 - i ∧
      w.angle = atan2 (a.y - pos.y) (a.x - pos.x) := by
  have hi : i < (mkVertices ring pos).reverse.length := by
    by_contra hc
    rw [List.getElem?_eq_none (by omega)] at h
    exact Option.noConfusion h
  rw [List.length_reverse, mkVertices_length] at hi
  rw [List.getElem?_reverse (by rwa [mkVertices_length])] at h
  rw [mkVertices_length] at h
  exact ⟨hi, mkVertices_get_some h⟩

theorem mem_mkVertices_bounds {ring : List (Vec2 ℝ)} {pos : Vec2 ℝ} {v : Vertex ℝ}
    (h : v ∈ mkVertices ring pos) : -Real.pi ≤ v.angle ∧ v.angle ≤ Real.pi := by
  unfold mkVertices at h
  rw [List.mem_map] at h
  obtain ⟨p, -, rfl⟩ := h
  exact atan2_bounds _ _

theorem mem_pushSlice_interval [LinearOrderedField α] {cfg : SliceCfg α}
    {s : OccluderSlice α} {e : BinEntry α} (he : e ∈ pushSlice cfg s)
    (hpi : 0 ≤ cfg.pi) (hsoft : 0 ≤ cfg.softness)
    (ha : -cfg.pi ≤ s.start_angle) (hb : s.start_angle ≤ cfg.pi)
    (hc : -cfg.pi ≤ s.end_angle) (hd : s.end_angle ≤ cfg.pi) :
    -(cfg.pi + cfg.softness) ≤ e.startAngle ∧ e.startAngle ≤ cfg.pi ∧
      -cfg.pi ≤ e.endAngle ∧ e.endAngle ≤ cfg.pi + cfg.softness := by
  unfold pushSlice at he
  split_ifs at he with h h0 h1 h2 <;> simp at he <;> subst he <;>
    refine ⟨?_, ?_, ?_, ?_⟩ <;> dsimp only <;> linarith

theorem stepSlice0_angles [LinearOrderedField α] (s : OccluderSlice α) (v : Vertex α) :
    (stepSlice0 s v).start_angle = s.start_angle ∧
      (stepSlice0 s v).end_angle = s.end_angle := by
  unfold stepSlice0
  split_ifs <;> exact ⟨rfl, rfl⟩

theorem sliceWalk_short [LinearOrderedField α] (cfg : SliceCfg α) (vs : List (Vertex α))
    (h : vs.length ≤ 1) : sliceWalk cfg vs = [] := by
  match vs with
  | [] =>
    unfold sliceWalk
    rw [walkAux_nil]
    simpa using pushSlice_short cfg (defaultSlice α) (by simp [defaultSlice])
  | [v] =>
    unfold sliceWalk
    rw [walkAux_cons, sliceStep_none, walkAux_nil]
    simpa using pushSlice_short cfg ⟨v.index, 1, 0, v.angle, v.angle⟩ (by simp)
  | v :: w :: t =>
    simp at h

theorem sliceWalk_interval [LinearOrderedField α] (cfg : SliceCfg α)
    (hpi : 0 ≤ cfg.pi) (hsoft : 0 ≤ cfg.softness) (vs : List (Vertex α))
    (hQ : ∀ v ∈ vs, -cfg.pi ≤ v.angle ∧ v.angle ≤ cfg.pi) :
    ∀ e ∈ sliceWalk cfg vs,
      -(cfg.pi + cfg.softness) ≤ e.startAngle ∧ e.startAngle ≤ cfg.pi ∧
        -cfg.pi ≤ e.endAngle ∧ e.endAngle ≤ cfg.pi + cfg.softness := by
  have hstep : ∀ (st : WalkState α) (v : Vertex α),
      ((-cfg.pi ≤ st.slice.start_angle ∧ st.slice.start_angle ≤ cfg.pi ∧
          -cfg.pi ≤ st.slice.end_angle ∧ st.slice.end_angle ≤ cfg.pi) ∧
        ∀ l, st.last = some l → -cfg.pi ≤ l.angle ∧ l.angle ≤ cfg.pi) →
      (-cfg.pi ≤ v.angle ∧ v.angle ≤ cfg.pi) →
      ((-cfg.pi ≤ (sliceStep cfg st v).1.slice.start_angle ∧
          (sliceStep cfg st v).1.slice.start_angle ≤ cfg.pi ∧
          -cfg.pi ≤ (sliceStep cfg st v).1.slice.end_angle ∧
          (sliceStep cfg st v).1.slice.end_angle ≤ cfg.pi) ∧
        ∀ l, (sliceStep cfg st v).1.last = some l →
          -cfg.pi ≤ l.angle ∧ l.angle ≤ cfg.pi) := by
    intro st v hI hv
    obtain ⟨lastOpt, s⟩ := st
    cases lastOpt with
    | none =>
      rw [sliceStep_none]
      refine ⟨⟨hv.1, hv.2, hv.1, hv.2⟩, fun l hl => ?_⟩
      obtain rfl : v = l := by simpa using hl
      exact hv
    | some l =>
      have hl := hI.2 l rfl
      obtain ⟨hsa, hsb, hsc, hsd⟩ := hI.1
      obtain ⟨h0a, h0b⟩ := stepSlice0_angles s v
      rcases sliceStep_total cfg l s v with heq | heq | heq <;> rw [heq] <;>
        refine ⟨?_, fun l' hl' => ?_⟩
      · exact ⟨hv.1, hv.2, hv.1, hv.2⟩
      · obtain rfl : v = l' := by simpa using hl'
        exact hv
      · dsimp only
        rw [h0a]
        exact ⟨hsa, hsb, hv.1, hv.2⟩
      · obtain rfl : v = l' := by simpa using hl'
        exact hv
      · exact ⟨hl.1, hl.2, hv.1, hv.2⟩
      · obtain rfl : v = l' := by simpa using hl'
        exact hv
  have hemit : ∀ (st : WalkState α) (v : Vertex α),
      ((-cfg.pi ≤ st.slice.start_angle ∧ st.slice.start_angle ≤ cfg.pi ∧
          -cfg.pi ≤ st.slice.end_angle ∧ st.slice.end_angle ≤ cfg.pi) ∧
        ∀ l, st.last = some l → -cfg.pi ≤ l.angle ∧ l.angle ≤ cfg.pi) →
      (-cfg.pi ≤ v.angle ∧ v.angle ≤ cfg.pi) →
      ∀ e ∈ (sliceStep cfg st v).2,
        -(cfg.pi + cfg.softness) ≤ e.startAngle ∧ e.startAngle ≤ cfg.pi ∧
          -cfg.pi ≤ e.endAngle ∧ e.endAngle ≤ cfg.pi + cfg.softness := by
    intro st v hI hv e he
    obtain ⟨lastOpt, s⟩ := st
    obtain ⟨hsa, hsb, hsc, hsd⟩ := hI.1
    cases lastOpt with
    | none =>
      rw [sliceStep_none] at he
      simp at he
    | some l =>
      obtain ⟨h0a, h0b⟩ := stepSlice0_angles s v
      rcases sliceStep_total cfg l s v with heq | heq | heq <;> rw [heq] at he
      · exact mem_pushSlice_interval he hpi hsoft hsa hsb hsc hsd
      · simp at he
      · refine mem_pushSlice_interval he hpi hsoft ?_ ?_ ?_ ?_ <;>
          dsimp only <;> simp only [h0a, h0b]
        · exact hsa
        · exact hsb
        · exact hsc
        · exact hsd
  have hinit : (-cfg.pi ≤ (defaultSlice α).start_angle ∧
      (defaultSlice α).start_angle ≤ cfg.pi ∧
      -cfg.pi ≤ (defaultSlice α).end_angle ∧ (defaultSlice α).end_angle ≤ cfg.pi) ∧
      ∀ l, (none : Option (Vertex α)) = some l →
        -cfg.pi ≤ l.angle ∧ l.angle ≤ cfg.pi := by
    refine ⟨?_, fun l hl => Option.noConfusion hl⟩
    simp only [defaultSlice]
    refine ⟨by linarith, by linarith, by linarith, by linarith⟩
  have key := walkAux_sound cfg
    (fun v => -cfg.pi ≤ v.angle ∧ v.angle ≤ cfg.pi)
    (fun st => (-cfg.pi ≤ st.slice.start_angle ∧ st.slice.start_angle ≤ cfg.pi ∧
        -cfg.pi ≤ st.slice.end_angle ∧ st.slice.end_angle ≤ cfg.pi) ∧
      ∀ l, st.last = some l → -cfg.pi ≤ l.angle ∧ l.angle ≤ cfg.pi)
    (fun e => -(cfg.pi + cfg.softness) ≤ e.startAngle ∧ e.startAngle ≤ cfg.pi ∧
      -cfg.pi ≤ e.endAngle ∧ e.endAngle ≤ cfg.pi + cfg.softness)
    hstep hemit vs ⟨none, defaultSlice α⟩ hinit hQ
  intro e he
  unfold sliceWalk at he
  rcases List.mem_append.mp he with h | h
  · exact key.2 e h
  · obtain ⟨hf, -⟩ := key.1
    exact mem_pushSlice_interval h hpi hsoft hf.1 hf.2.1 hf.2.2.1 hf.2.2.2

theorem push_vertices_interval (ring : List (Vec2 ℝ)) (pos : Vec2 ℝ) (sv idx : ℕ)
    (soft dist : ℝ) (rev poly : Bool) (hsoft : 0 ≤ soft) :
    ∀ e ∈ push_vertices ring pos sv idx soft dist rev poly,
      -(Real.pi + soft) ≤ e.startAngle ∧ e.startAngle ≤ Real.pi ∧
        -Real.pi ≤ e.endAngle ∧ e.endAngle ≤ Real.pi + soft := by
  intro e he
  unfold push_vertices at he
  refine sliceWalk_interval ⟨Real.pi, soft, dist, rev, poly, sv, idx⟩ Real.pi_pos.le hsoft
    _ ?_ e he
  intro v hv
  cases rev with
  | false =>
    rw [if_neg (by simp)] at hv
    exact mem_mkVertices_bounds hv
  | true =>
    rw [if_pos rfl] at hv
    rw [List.mem_reverse] at hv
    exact mem_mkVertices_bounds hv

theorem foldl_add_entries (es : List (BinEntry ℝ)) (b : BinBuffer ℝ) :
    es.foldl (fun b e => b.add e) b = ⟨b.entries ++ es, b.written⟩ := by
  induction es generalizing b with
  | nil => simp
  | cons e es ih =>
    rw [List.foldl_cons, ih]
    simp [BinBuffer.add]

theorem foldl_guard_acc (c : ExtractedOccluder → Bool)
    (ef : ExtractedOccluder → List (BinEntry ℝ)) :
    ∀ (occs : List ExtractedOccluder) (acc : List (BinEntry ℝ)),
      occs.foldl (fun a o => if c o then a ++ ef o else a) acc =
        acc ++ occs.foldl (fun a o => if c o then a ++ ef o else a) [] := by
  intro occs
  induction occs with
  | nil => simp
  | cons o occs ih =>
    intro acc
    rw [List.foldl_cons, List.foldl_cons, ih, ih (if c o then [] ++ ef o else [])]
    split_ifs <;> simp

theorem processLight_fold (c : ExtractedOccluder → Bool)
    (ef : ExtractedOccluder → List (BinEntry ℝ)) :
    ∀ (occs : List ExtractedOccluder) (b : BinBuffer ℝ) (tr : List (BinEvent ℝ)),
      occs.foldl
          (fun acc o =>
            if c o then
              ((ef o).foldl (fun b e => b.add e) acc.1, acc.2 ++ (ef o).map BinEvent.add)
            else acc)
          (b, tr) =
        (⟨b.entries ++ occs.foldl (fun a o => if c o then a ++ ef o else a) [], b.written⟩,
          tr ++ (occs.foldl (fun a o => if c o then a ++ ef o else a) []).map
            BinEvent.add) := by
  intro occs
  induction occs with
  | nil =>
    intro b tr
    simp
  | cons o occs ih =>
    intro b tr
    rw [List.foldl_cons, List.foldl_cons]
    by_cases hc : c o = true
    · rw [if_pos hc, if_pos hc, ih, foldl_add_entries,
        foldl_guard_acc c ef occs ([] ++ ef o)]
      simp
    · rw [if_neg hc, if_neg hc, ih]

theorem occluderSliced_iff (light : ExtractedPointLight) (light_aabb : Aabb2 ℝ)
    (o : ExtractedOccluder) :
    occluderSliced light light_aabb o = true ↔
      light.cast_shadows = true ∧ o.aabb.intersects light_aabb ∧
        requiredIndicesPresent o := by
  unfold occluderSliced requiredIndicesPresent
  split_ifs with h
  · simp only [Bool.false_eq_true, false_iff]
    rintro ⟨hc, hi, -⟩
    rcases h with h | h
    · exact h hc
    · exact h hi
  · rw [not_or, not_not, not_not] at h
    obtain ⟨hc, hi⟩ := h
    obtain ⟨shape, aabb, pos, rot, ri, p1, p2⟩ := o
    cases shape <;> simp_all

theorem interval_collapse {a b A B c q : ℝ} (h1 : a ≤ c) (h2 : c ≤ A) (h3 : b ≤ c)
    (h4 : c ≤ B) :
    (min (max a b) (min A B) ≤ q ∧ q ≤ min A B) ↔
      (a ≤ q ∧ q ≤ A ∧ b ≤ q ∧ q ≤ B) := by
  have hab : max a b ≤ min A B :=
    max_le (le_min (h1.trans h2) (h1.trans h4)) (le_min (h3.trans h2) (h3.trans h4))
  rw [min_eq_left hab]
  constructor
  · rintro ⟨hl, hr⟩
    exact ⟨(le_max_left a b).trans hl, hr.trans (min_le_left A B),
      (le_max_right a b).trans hl, hr.trans (min_le_right A B)⟩
  · rintro ⟨ha, hA, hb, hB⟩
    exact ⟨max_le ha hb, le_min hA hB⟩

theorem arctan_nine_pos : (0 : ℝ) < Real.arctan 9 := by
  have h := Real.arctan_strictMono (show (0 : ℝ) < 9 by norm_num)
  rwa [Real.arctan_zero] at h

theorem arctan_nine_lt_eleven : Real.arctan 9 < Real.arctan 11 :=
  Real.arctan_strictMono (by norm_num)

theorem pv_square_eq :
    push_vertices [⟨-1, -1⟩, ⟨-1, 1⟩, ⟨1, 1⟩, ⟨1, -1⟩, ⟨-1, -1⟩] ⟨0, -10⟩ 0 0 0 0
        false true =
      [⟨⟨packIndex true false 0 0, 3, 2, 0⟩, Real.arctan 9,
        Real.pi - Real.arctan 9⟩] := by
  have hpi := Real.pi_pos
  have f1 := arctan_nine_lt_eleven
  have f2 := arctan_nine_pos
  have f2b : (0 : ℝ) < Real.arctan 11 := lt_trans f2 f1
  have f3 : Real.arctan 11 < Real.pi / 2 := Real.arctan_lt_pi_div_two 11
  have f4 : Real.arctan 9 < Real.pi / 2 := Real.arctan_lt_pi_div_two 9
  have h1 : atan2 9 (-1) = Real.pi - Real.arctan 9 := by
    rw [atan2_of_neg_nonneg (by norm_num) (by norm_num),
      show (9 : ℝ) / (-1) = -9 by norm_num, Real.arctan_neg]
    ring
  have h2 : atan2 11 (-1) = Real.pi - Real.arctan 11 := by
    rw [atan2_of_neg_nonneg (by norm_num) (by norm_num),
      show (11 : ℝ) / (-1) = -11 by norm_num, Real.arctan_neg]
    ring
  have h3 : atan2 11 1 = Real.arctan 11 := by
    rw [atan2_of_pos (by norm_num)]
    norm_num
  have h4 : atan2 9 1 = Real.arctan 9 := by
    rw [atan2_of_pos (by norm_num)]
    norm_num
  have hmk : mkVertices [⟨-1, -1⟩, ⟨-1, 1⟩, ⟨1, 1⟩, ⟨1, -1⟩, ⟨-1, -1⟩] ⟨0, -10⟩ =
      [⟨0, Real.pi - Real.arctan 9⟩, ⟨1, Real.pi - Real.arctan 11⟩,
        ⟨2, Real.arctan 11⟩, ⟨3, Real.arctan 9⟩, ⟨4, Real.pi - Real.arctan 9⟩] := by
    unfold mkVertices
    norm_num [List.enum, List.enumFrom, h1, h2, h3, h4]
  have habs1 : |(Real.pi - Real.arctan 11) - (Real.pi - Real.arctan 9)| ≤ Real.pi :=
    abs_le.mpr ⟨by linarith, by linarith⟩
  have hlt1 : Real.pi - Real.arctan 11 < Real.pi - Real.arctan 9 := by linarith
  have habs2 : |Real.arctan 11 - (Real.pi - Real.arctan 11)| ≤ Real.pi :=
    abs_le.mpr ⟨by linarith, by linarith⟩
  have hlt2 : Real.arctan 11 < Real.pi - Real.arctan 11 := by linarith
  have habs3 : |Real.arctan 9 - Real.arctan 11| ≤ Real.pi :=
    abs_le.mpr ⟨by linarith, by linarith⟩
  have habs4 : |(Real.pi - Real.arctan 9) - Real.arctan 9| ≤ Real.pi :=
    abs_le.mpr ⟨by linarith, by linarith⟩
  have hlt4 : Real.arctan 9 < Real.pi - Real.arctan 9 := by linarith
  unfold push_vertices
  dsimp only
  rw [if_neg (by simp), hmk]
  unfold sliceWalk
  rw [walkAux_cons, sliceStep_none]
  dsimp only
  rw [walkAux_cons, sliceStep_dec _ _ _ _ habs1 hlt1]
  dsimp only
  rw [pushSlice_short _ _ (by norm_num)]
  rw [walkAux_cons, sliceStep_dec _ _ _ _ habs2 hlt2]
  dsimp only
  rw [pushSlice_short _ _ (by norm_num)]
  rw [walkAux_cons, sliceStep_dec _ _ _ _ habs3 f1]
  dsimp only
  rw [pushSlice_short _ _ (by norm_num)]
  rw [walkAux_cons, sliceStep_inc _ _ _ _ habs4 hlt4 (by norm_num)]
  dsimp only
  rw [walkAux_nil]
  dsimp only
  rw [pushSlice_term0 _ _ (by norm_num) rfl]
  simp

theorem pv_revpair_eq :
    push_vertices [⟨0, 1⟩, ⟨1, 0⟩] ⟨0, 0⟩ 0 0 0 0 true true =
      [⟨⟨packIndex true true 0 0, 1, 2, 0⟩, 0, Real.pi / 2⟩] := by
  have hpi := Real.pi_pos
  have h1 : atan2 (1 - 0) (0 - 0) = Real.pi / 2 := by
    norm_num
    exact atan2_of_zero_pos (by norm_num)
  have h2 : atan2 (0 - 0) (1 - 0) = 0 := by
    norm_num
    rw [atan2_of_pos (by norm_num)]
    norm_num
  have hmk : mkVertices [⟨0, 1⟩, ⟨1, 0⟩] ⟨0, 0⟩ =
      [⟨0, Real.pi / 2⟩, ⟨1, 0⟩] := by
    unfold mkVertices
    norm_num [List.enum, List.enumFrom]
    constructor
    · exact atan2_of_zero_pos (by norm_num)
    · rw [atan2_of_pos (by norm_num)]
      norm_num
  have habs : |Real.pi / 2 - 0| ≤ Real.pi := by
    rw [sub_zero, abs_of_nonneg (by linarith)]
    linarith
  have hlt : (0 : ℝ) < Real.pi / 2 := by linarith
  unfold push_vertices
  dsimp only
  rw [if_pos rfl, hmk]
  rw [show ([⟨0, Real.pi / 2⟩, ⟨1, 0⟩] : List (Vertex ℝ)).reverse =
    [⟨1, 0⟩, ⟨0, Real.pi / 2⟩] by rfl]
  unfold sliceWalk
  rw [walkAux_cons, sliceStep_none]
  dsimp only
  rw [walkAux_cons, sliceStep_inc _ _ _ _ habs hlt (by norm_num)]
  dsimp only
  rw [walkAux_nil]
  dsimp only
  rw [pushSlice_term0 _ _ (by norm_num) rfl]
  simp

theorem pv_softwrap_eq :
    push_vertices [⟨1, 0⟩, ⟨-1, 1⟩] ⟨0, 0⟩ 0 0 1 0 false true =
      [⟨⟨packIndex true false 0 0, 0, 2, 0⟩, 0 - 1, 3 * Real.pi / 4 + 1⟩] := by
  have hpi := Real.pi_pos
  have h1 : atan2 1 (-1) = 3 * Real.pi / 4 := by
    rw [atan2_of_neg_nonneg (by norm_num) (by norm_num),
      show (1 : ℝ) / (-1) = -1 by norm_num, Real.arctan_neg, Real.arctan_one]
    ring
  have hmk : mkVertices [⟨1, 0⟩, ⟨-1, 1⟩] ⟨0, 0⟩ =
      [⟨0, 0⟩, ⟨1, 3 * Real.pi / 4⟩] := by
    unfold mkVertices
    norm_num [List.enum, List.enumFrom]
    constructor
    · rw [atan2_of_pos (by norm_num)]
      norm_num
    · exact h1
  have habs : |3 * Real.pi / 4 - 0| ≤ Real.pi := by
    rw [sub_zero, abs_of_nonneg (by linarith)]
    linarith
  have hlt : (0 : ℝ) < 3 * Real.pi / 4 := by linarith
  unfold push_vertices
  dsimp only
  rw [if_neg (by simp), hmk]
  unfold sliceWalk
  rw [walkAux_cons, sliceStep_none]
  dsimp only
  rw [walkAux_cons, sliceStep_inc _ _ _ _ habs hlt (by norm_num)]
  dsimp only
  rw [walkAux_nil]
  dsimp only
  rw [pushSlice_term0 _ _ (by norm_num) rfl]
  simp

/-- C1 (counterexample): for the closed square ring
`(-1,-1),(-1,1),(1,1),(1,-1),(-1,-1)` and a light at `(0,-10)`, with reverse
false and softness 0, the single emitted slice starts at ring index 3 (so it
spans the two near vertices `(1,-1)` and `(-1,-1)`, not the far vertices at
ring indices 1 and 2), and its start angle is `arctan 9`, which differs from
the `atan2` angle of either far vertex relative to the light.  This refutes
the claim that the slice spans `(-1,1)` and `(1,1)` with their angles. -/
theorem C1_counterexample :
    push_vertices [⟨-1, -1⟩, ⟨-1, 1⟩, ⟨1, 1⟩, ⟨1, -1⟩, ⟨-1, -1⟩] ⟨0, -10⟩ 0 0 0 0
        false true =
      [⟨⟨packIndex true false 0 0, 3, 2, 0⟩, Real.arctan 9,
        Real.pi - Real.arctan 9⟩] ∧
    (3 : ℕ) ≠ 1 ∧
    Real.arctan 9 ≠ atan2 ((1 : ℝ) - (-10)) ((1 : ℝ) - 0) ∧
    Real.arctan 9 ≠ atan2 ((1 : ℝ) - (-10)) ((-1 : ℝ) - 0) := by
  have hpi := Real.pi_pos
  have f3 : Real.arctan 11 < Real.pi / 2 := Real.arctan_lt_pi_div_two 11
  have f4 : Real.arctan 9 < Real.pi / 2 := Real.arctan_lt_pi_div_two 9
  refine ⟨pv_square_eq, by norm_num, ?_, ?_⟩
  · rw [show ((1 : ℝ) - (-10)) = 11 by norm_num, show ((1 : ℝ) - 0) = 1 by norm_num,
      atan2_of_pos (by norm_num)]
    norm_num
    exact ne_of_lt arctan_nine_lt_eleven
  · rw [show ((1 : ℝ) - (-10)) = 11 by norm_num, show ((-1 : ℝ) - 0) = -1 by norm_num,
      atan2_of_neg_nonneg (by norm_num) (by norm_num),
      show (11 : ℝ) / (-1) = -11 by norm_num, Real.arctan_neg]
    intro h
    nlinarith [arctan_nine_pos, arctan_nine_lt_eleven]

/-- C1 (amended): for the closed square ring and the light at `(0,-10)`, with
reverse false and softness 0, the slicer emits exactly one slice of
termination mode 0; its run covers the two vertices at ring indices 3 and 4 —
the near vertices `(1,-1)` and `(-1,-1)` — and its start and end angles are
the `atan2` angles of those two vertices relative to the light. -/
theorem C1_amended :
    push_vertices [⟨-1, -1⟩, ⟨-1, 1⟩, ⟨1, 1⟩, ⟨1, -1⟩, ⟨-1, -1⟩] ⟨0, -10⟩ 0 0 0 0
        false true =
      [⟨⟨packIndex true false 0 0, 3, 2, 0⟩,
        atan2 ((-1 : ℝ) - (-10)) ((1 : ℝ) - 0),
        atan2 ((-1 : ℝ) - (-10)) ((-1 : ℝ) - 0)⟩] := by
  rw [pv_square_eq]
  have hs : atan2 ((-1 : ℝ) - (-10)) ((1 : ℝ) - 0) = Real.arctan 9 := by
    rw [show ((-1 : ℝ) - (-10)) = 9 by norm_num, show ((1 : ℝ) - 0) = 1 by norm_num,
      atan2_of_pos (by norm_num)]
    norm_num
  have he : atan2 ((-1 : ℝ) - (-10)) ((-1 : ℝ) - 0) = Real.pi - Real.arctan 9 := by
    rw [show ((-1 : ℝ) - (-10)) = 9 by norm_num, show ((-1 : ℝ) - 0) = -1 by norm_num,
      atan2_of_neg_nonneg (by norm_num) (by norm_num),
      show (9 : ℝ) / (-1) = -9 by norm_num, Real.arctan_neg]
    ring
  rw [hs, he]

/-- C2 (counterexample): an occluder whose bounding box intersects the
light's influence box and whose buffer indices are present is nevertheless
skipped when the light's `cast_shadows` flag is off, and is processed when
that flag is on; the pass/skip decision therefore depends on the light's
flag, not on any occluder-side shadow flag (the extracted occluder has no
such field). -/
theorem C2_counterexample :
    occluderSliced ⟨⟨0, 0⟩, 1, false⟩ ⟨⟨-1, -1⟩, ⟨1, 1⟩⟩
        ⟨.polygon [], ⟨⟨-1, -1⟩, ⟨1, 1⟩⟩, ⟨0, 0⟩, 0, none, some 0, some 0⟩ = false ∧
    Aabb2.intersects ⟨⟨-1, -1⟩, ⟨1, 1⟩⟩ ⟨⟨-1, -1⟩, ⟨1, 1⟩⟩ ∧
    requiredIndicesPresent
      ⟨.polygon [], ⟨⟨-1, -1⟩, ⟨1, 1⟩⟩, ⟨0, 0⟩, 0, none, some 0, some 0⟩ ∧
    occluderSliced ⟨⟨0, 0⟩, 1, true⟩ ⟨⟨-1, -1⟩, ⟨1, 1⟩⟩
      ⟨.polygon [], ⟨⟨-1, -1⟩, ⟨1, 1⟩⟩, ⟨0, 0⟩, 0, none, some 0, some 0⟩ = true := by
  refine ⟨?_, ?_, ?_, ?_⟩
  · unfold occluderSliced
    rw [if_pos (Or.inl (by simp))]
  · unfold Aabb2.intersects
    norm_num
  · exact ⟨rfl, rfl⟩
  · unfold occluderSliced
    rw [if_neg]
    · rfl
    · rw [not_or, not_not, not_not]
      refine ⟨rfl, ?_⟩
      unfold Aabb2.intersects
      norm_num

/-- C2 (amended): in the per-frame pairing loop, an occluder is passed to the
slicer if and only if the LIGHT's `cast_shadows` flag is enabled, the
occluder's bounding box intersects the light's influence box, and the
occluder's GPU-buffer index components required for its shape are present. -/
theorem C2_amended (light : ExtractedPointLight) (light_aabb : Aabb2 ℝ)
    (o : ExtractedOccluder) :
    occluderSliced light light_aabb o = true ↔
      light.cast_shadows = true ∧ o.aabb.intersects light_aabb ∧
        requiredIndicesPresent o :=
  occluderSliced_iff light light_aabb o

/-- C3 (counterexample): with camera rectangle `[0,1] × [0,1]`, a light at
`(5, 1/2)` with range 1, the influence rectangle computed by `prepare_data`
is `[4,5] × [0,1]`, whereas the spec's formula (range box intersected with
the camera rectangle, without first extending the camera rectangle to the
light position) gives the collapsed rectangle `[1,1] × [0,1]`; the two
differ. -/
theorem C3_counterexample :
    lightRect ⟨⟨0, 0⟩, ⟨1, 1⟩⟩ ⟨5, 1 / 2⟩ 1 = ⟨⟨4, 0⟩, ⟨5, 1⟩⟩ ∧
    specLightRect ⟨⟨0, 0⟩, ⟨1, 1⟩⟩ ⟨5, 1 / 2⟩ 1 = ⟨⟨1, 0⟩, ⟨1, 1⟩⟩ ∧
    (⟨⟨4, 0⟩, ⟨5, 1⟩⟩ : Rect) ≠ ⟨⟨1, 0⟩, ⟨1, 1⟩⟩ := by
  refine ⟨?_, ?_, ?_⟩
  · unfold lightRect Rect.union_point Rect.intersect rangeRect Vec2.cmin Vec2.cmax
    dsimp only
    norm_num
  · unfold specLightRect Rect.intersect rangeRect Vec2.cmin Vec2.cmax
    dsimp only
    norm_num
  · intro h
    have := congrArg (fun r : Rect => r.min.x) h
    norm_num at this

/-- C3 (amended): the influence rectangle used for occluder culling is the
intersection of the range box with the camera rectangle EXTENDED TO CONTAIN
the light position (`camera_rect.union_point(light.pos)`): for a nonnegative
range, a point lies in the computed influence rectangle exactly when it lies
both in the extended camera rectangle and in the range box. -/
theorem C3_amended (camera_rect : Rect) (light_pos : Vec2 ℝ) (range : ℝ)
    (p : Vec2 ℝ) (hr : 0 ≤ range) :
    (lightRect camera_rect light_pos range).contains p ↔
      ((camera_rect.union_point light_pos).contains p ∧
        (rangeRect light_pos range).contains p) := by
  have hx := interval_collapse (a := min camera_rect.min.x light_pos.x)
    (b := light_pos.x - range) (A := max camera_rect.max.x light_pos.x)
    (B := light_pos.x + range) (c := light_pos.x) (q := p.x)
    (min_le_right _ _) (le_max_right _ _) (by linarith) (by linarith)
  have hy := interval_collapse (a := min camera_rect.min.y light_pos.y)
    (b := light_pos.y - range) (A := max camera_rect.max.y light_pos.y)
    (B := light_pos.y + range) (c := light_pos.y) (q := p.y)
    (min_le_right _ _) (le_max_right _ _) (by linarith) (by linarith)
  unfold lightRect Rect.union_point Rect.intersect rangeRect Rect.contains
    Vec2.cmin Vec2.cmax
  dsimp only
  constructor
  · rintro ⟨m1, m2, m3, m4⟩
    obtain ⟨hx1, hx2, hx3, hx4⟩ := hx.mp ⟨m1, m3⟩
    obtain ⟨hy1, hy2, hy3, hy4⟩ := hy.mp ⟨m2, m4⟩
    exact ⟨⟨hx1, hy1, hx2, hy2⟩, hx3, hy3, hx4, hy4⟩
  · rintro ⟨⟨u1, u2, u3, u4⟩, r1, r2, r3, r4⟩
    obtain ⟨hx1, hx2⟩ := hx.mpr ⟨u1, u3, r1, r3⟩
    obtain ⟨hy1, hy2⟩ := hy.mpr ⟨u2, u4, r2, r4⟩
    exact ⟨hx1, hy1, hx2, hy2⟩

/-- C3 (witness): the amended characterisation applied at the concrete
counterexample camera, light and point. -/
theorem C3_witness :
    (0 : ℝ) ≤ 1 ∧
    ((lightRect ⟨⟨0, 0⟩, ⟨1, 1⟩⟩ ⟨5, 1 / 2⟩ 1).contains ⟨9 / 2, 1 / 2⟩ ↔
      ((Rect.union_point ⟨⟨0, 0⟩, ⟨1, 1⟩⟩ ⟨5, 1 / 2⟩).contains ⟨9 / 2, 1 / 2⟩ ∧
        (rangeRect ⟨5, 1 / 2⟩ 1).contains ⟨9 / 2, 1 / 2⟩)) :=
  ⟨by norm_num, C3_amended ⟨⟨0, 0⟩, ⟨1, 1⟩⟩ ⟨5, 1 / 2⟩ 1 ⟨9 / 2, 1 / 2⟩ (by norm_num)⟩

/-- C4 (counterexample): for the two-vertex ring `(0,1),(1,0)` with the light
at the origin and the reverse flag set (offset 0), the emitted slice's
`min_v` is 1 — the LARGEST original ring index of the run (which covers both
vertices, indices 0 and 1) — not the smallest index 0 as claimed. -/
theorem C4_counterexample :
    push_vertices [⟨0, 1⟩, ⟨1, 0⟩] ⟨0, 0⟩ 0 0 0 0 true true =
      [⟨⟨packIndex true true 0 0, 1, 2, 0⟩, 0, Real.pi / 2⟩] ∧
    (1 : ℕ) ≠ 0 :=
  ⟨pv_revpair_eq, by norm_num⟩

/-- C4 (amended): every emitted entry's `length` is the number of vertices
in its run, which is a contiguous block of ring indices, and the entry is
tied to that block: its `min_v` is the supplied offset plus the original
ring index of the run's first-traversed vertex, and its stored interval is
anchored (up to the softness widening and the mode-1 `pi` / mode-2 `-pi`
clamps) to the `atan2` angles of the run's first- and last-traversed
vertices.  For reverse = false the run is the index block `[i, i + length)`
traversed upward, so `min_v = offset + i`, the SMALLEST index of the run;
for reverse = true the run is the block `[j + 1 - length, j]` traversed
downward, so `min_v = offset + j`, the LARGEST index of the run. -/
theorem C4_amended (ring : List (Vec2 ℝ)) (pos : Vec2 ℝ) (sv idx : ℕ)
    (soft dist : ℝ) (poly : Bool) :
    (∀ e ∈ push_vertices ring pos sv idx soft dist false poly,
      ∃ i L a b, 2 ≤ L ∧ i + L ≤ ring.length ∧ ring[i]? = some a ∧
        ring[i + L - 1]? = some b ∧ e.pointer.length = L ∧
        e.pointer.min_v = i + sv ∧
        ((e.startAngle = atan2 (a.y - pos.y) (a.x - pos.x) - soft ∧
            e.endAngle = atan2 (b.y - pos.y) (b.x - pos.x) + soft) ∨
          (e.startAngle = atan2 (a.y - pos.y) (a.x - pos.x) - soft ∧
            e.endAngle = Real.pi) ∨
          (e.startAngle = -Real.pi ∧
            e.endAngle = atan2 (b.y - pos.y) (b.x - pos.x) + soft))) ∧
    (∀ e ∈ push_vertices ring pos sv idx soft dist true poly,
      ∃ j L a b, 2 ≤ L ∧ L ≤ j + 1 ∧ j < ring.length ∧ ring[j]? = some a ∧
        ring[j + 1 - L]? = some b ∧ e.pointer.length = L ∧
        e.pointer.min_v = j + sv ∧
        ((e.startAngle = atan2 (a.y - pos.y) (a.x - pos.x) - soft ∧
            e.endAngle = atan2 (b.y - pos.y) (b.x - pos.x) + soft) ∨
          (e.startAngle = atan2 (a.y - pos.y) (a.x - pos.x) - soft ∧
            e.endAngle = Real.pi) ∨
          (e.startAngle = -Real.pi ∧
            e.endAngle = atan2 (b.y - pos.y) (b.x - pos.x) + soft))) := by
  constructor
  · intro e he
    unfold push_vertices at he
    dsimp only at he
    rw [if_neg (by simp)] at he
    obtain ⟨i, L, w1, w2, hL, hiL, hw1, hw2, hlen, hminv, hiv⟩ :=
      sliceWalk_run _ _ e he
    rw [mkVertices_length] at hiL
    obtain ⟨a, ha, haidx, haang⟩ := mkVertices_get_some hw1
    obtain ⟨b, hb, hbidx, hbang⟩ := mkVertices_get_some hw2
    refine ⟨i, L, a, b, hL, hiL, ha, hb, hlen, ?_, ?_⟩
    · rw [hminv, haidx]
    · rcases hiv with ⟨h1, h2⟩ | ⟨h1, h2⟩ | ⟨h1, h2⟩
      · refine Or.inl ⟨?_, ?_⟩
        · rw [h1]
          dsimp only
          rw [haang]
        · rw [h2]
          dsimp only
          rw [hbang]
      · refine Or.inr (Or.inl ⟨?_, ?_⟩)
        · rw [h1]
          dsimp only
          rw [haang]
        · rw [h2]
      · refine Or.inr (Or.inr ⟨?_, ?_⟩)
        · rw [h1]
        · rw [h2]
          dsimp only
          rw [hbang]
  · intro e he
    unfold push_vertices at he
    dsimp only at he
    rw [if_pos rfl] at he
    obtain ⟨i, L, w1, w2, hL, hiL, hw1, hw2, hlen, hminv, hiv⟩ :=
      sliceWalk_run _ _ e he
    rw [List.length_reverse, mkVertices_length] at hiL
    obtain ⟨hia, a, ha, haidx, haang⟩ := mkVertices_reverse_get_some hw1
    obtain ⟨hib, b, hb, hbidx, hbang⟩ := mkVertices_reverse_get_some hw2
    refine ⟨ring.length - 1 - i, L, a, b, hL, by omega, by omega, ha, ?_, hlen, ?_, ?_⟩
    · rw [show ring.length - 1 - i + 1 - L = ring.length - 1 - (i + L - 1) by omega]
      exact hb
    · rw [hminv, haidx]
    · rcases hiv with ⟨h1, h2⟩ | ⟨h1, h2⟩ | ⟨h1, h2⟩
      · refine Or.inl ⟨?_, ?_⟩
        · rw [h1]
          dsimp only
          rw [haang]
        · rw [h2]
          dsimp only
          rw [hbang]
      · refine Or.inr (Or.inl ⟨?_, ?_⟩)
        · rw [h1]
          dsimp only
          rw [haang]
        · rw [h2]
      · refine Or.inr (Or.inr ⟨?_, ?_⟩)
        · rw [h1]
        · rw [h2]
          dsimp only
          rw [hbang]

/-- C4 (witness): the amended statement applied to the concrete reversed
two-vertex ring `(0,1),(1,0)` with the light at the origin, whose single
emitted entry has `min_v = 1` (the largest ring index of its run) and
length 2, with its interval anchored to the `atan2` angles of the run's
first-traversed vertex `(1,0)` and last-traversed vertex `(0,1)`. -/
theorem C4_witness :
    ((⟨⟨packIndex true true 0 0, 1, 2, 0⟩, 0, Real.pi / 2⟩ : BinEntry ℝ) ∈
      push_vertices [⟨0, 1⟩, ⟨1, 0⟩] ⟨0, 0⟩ 0 0 0 0 true true) ∧
    ∃ j L a b, 2 ≤ L ∧ L ≤ j + 1 ∧ j < ([⟨0, 1⟩, ⟨1, 0⟩] : List (Vec2 ℝ)).length ∧
      ([⟨0, 1⟩, ⟨1, 0⟩] : List (Vec2 ℝ))[j]? = some a ∧
      ([⟨0, 1⟩, ⟨1, 0⟩] : List (Vec2 ℝ))[j + 1 - L]? = some b ∧
      (⟨⟨packIndex true true 0 0, 1, 2, 0⟩, 0,
          Real.pi / 2⟩ : BinEntry ℝ).pointer.length = L ∧
      (⟨⟨packIndex true true 0 0, 1, 2, 0⟩, 0,
          Real.pi / 2⟩ : BinEntry ℝ).pointer.min_v = j + 0 ∧
      (((⟨⟨packIndex true true 0 0, 1, 2, 0⟩, 0,
            Real.pi / 2⟩ : BinEntry ℝ).startAngle =
            atan2 (a.y - (0 : ℝ)) (a.x - (0 : ℝ)) - 0 ∧
          (⟨⟨packIndex true true 0 0, 1, 2, 0⟩, 0,
              Real.pi / 2⟩ : BinEntry ℝ).endAngle =
            atan2 (b.y - (0 : ℝ)) (b.x - (0 : ℝ)) + 0) ∨
        ((⟨⟨packIndex true true 0 0, 1, 2, 0⟩, 0,
              Real.pi / 2⟩ : BinEntry ℝ).startAngle =
            atan2 (a.y - (0 : ℝ)) (a.x - (0 : ℝ)) - 0 ∧
          (⟨⟨packIndex true true 0 0, 1, 2, 0⟩, 0,
              Real.pi / 2⟩ : BinEntry ℝ).endAngle = Real.pi) ∨
        ((⟨⟨packIndex true true 0 0, 1, 2, 0⟩, 0,
              Real.pi / 2⟩ : BinEntry ℝ).startAngle = -Real.pi ∧
          (⟨⟨packIndex true true 0 0, 1, 2, 0⟩, 0,
              Real.pi / 2⟩ : BinEntry ℝ).endAngle =
            atan2 (b.y - (0 : ℝ)) (b.x - (0 : ℝ)) + 0)) := by
  have hm : (⟨⟨packIndex true true 0 0, 1, 2, 0⟩, 0, Real.pi / 2⟩ : BinEntry ℝ) ∈
      push_vertices [⟨0, 1⟩, ⟨1, 0⟩] ⟨0, 0⟩ 0 0 0 0 true true := by
    rw [pv_revpair_eq]
    exact List.mem_singleton.mpr rfl
  exact ⟨hm, (C4_amended [⟨0, 1⟩, ⟨1, 0⟩] ⟨0, 0⟩ 0 0 0 0 true).2 _ hm⟩


/-- C5: at a wrapping increasing transition (the raw angular jump exceeds
`PI` in magnitude while the current angle is numerically below the previous
one), the step extends the current run by the current vertex, emits it as the
single mode-1 entry with its end pinned to `PI`, and continues with a fresh
two-vertex run of termination mode 2 starting at the previous vertex; any
mode-2 run of length at least 2, when eventually pushed, is emitted with its
start pinned to `-PI`. -/
theorem C5_wraparound (cfg : SliceCfg ℝ) (st : WalkState ℝ) (l v : Vertex ℝ)
    (hlast : st.last = some l) (hlen : 1 ≤ st.slice.length)
    (hloop : cfg.pi < |v.angle - l.angle|) (hdec : v.angle < l.angle) :
    sliceStep cfg st v =
      (⟨some v, ⟨l.index, 2, 2, l.angle, v.angle⟩⟩,
        [⟨⟨packIndex cfg.poly cfg.rev 1 cfg.occIndex,
            st.slice.start + cfg.startVertex, st.slice.length + 1, cfg.distance⟩,
          st.slice.start_angle - cfg.softness, cfg.pi⟩]) ∧
    ∀ s : OccluderSlice ℝ, s.term = 2 → 1 < s.length →
      pushSlice cfg s =
        [⟨⟨packIndex cfg.poly cfg.rev 2 cfg.occIndex, s.start + cfg.startVertex,
            s.length, cfg.distance⟩, -cfg.pi, s.end_angle + cfg.softness⟩] := by
  constructor
  · obtain ⟨lastOpt, s⟩ := st
    obtain rfl : lastOpt = some l := hlast
    dsimp only at hlen hloop hdec ⊢
    rw [sliceStep_wrap cfg s l v hloop hdec (by omega)]
    rw [pushSlice_term1 _ _ (by dsimp only; omega) rfl]
  · intro s ht hl
    rw [pushSlice_term2 _ _ hl ht, ht]

/-- C5 (witness): the wrap step at a concrete state with previous angle 3 and
current angle -3 (jump 6 exceeds `PI`), and the mode-2 emission at a concrete
term-2 slice. -/
theorem C5_witness :
    sliceStep (⟨Real.pi, 0, 0, false, true, 0, 0⟩ : SliceCfg ℝ)
        ⟨some ⟨0, 3⟩, ⟨0, 1, 0, 3, 3⟩⟩ ⟨1, -3⟩ =
      (⟨some ⟨1, -3⟩, ⟨0, 2, 2, 3, -3⟩⟩,
        [⟨⟨packIndex true false 1 0, 0 + 0, 1 + 1, 0⟩, 3 - 0, Real.pi⟩]) ∧
    pushSlice (⟨Real.pi, 0, 0, false, true, 0, 0⟩ : SliceCfg ℝ) ⟨4, 2, 2, 0, 1⟩ =
      [⟨⟨packIndex true false 2 0, 4 + 0, 2, 0⟩, -Real.pi, 1 + 0⟩] := by
  have hloop : (⟨Real.pi, 0, 0, false, true, 0, 0⟩ : SliceCfg ℝ).pi <
      |(⟨1, -3⟩ : Vertex ℝ).angle - (⟨0, 3⟩ : Vertex ℝ).angle| := by
    dsimp only
    rw [show (-3 : ℝ) - 3 = -6 by norm_num, abs_of_nonpos (by norm_num)]
    have := Real.pi_lt_315
    linarith
  have h := C5_wraparound ⟨Real.pi, 0, 0, false, true, 0, 0⟩
    ⟨some ⟨0, 3⟩, ⟨0, 1, 0, 3, 3⟩⟩ ⟨0, 3⟩ ⟨1, -3⟩ rfl (le_refl 1) hloop (by norm_num)
  exact ⟨h.1, h.2 ⟨4, 2, 2, 0, 1⟩ rfl (by norm_num)⟩

/-- C6 (counterexample): with softness 1 (a legal clamped value), the
two-vertex ring `(1,0),(-1,1)` with the light at the origin yields a mode-0
entry whose stored end angle is `3*PI/4 + 1`, which exceeds `PI`; stored
intervals therefore do not always lie within `[-PI, PI]` once softness
widening is applied. -/
theorem C6_counterexample :
    push_vertices [⟨1, 0⟩, ⟨-1, 1⟩] ⟨0, 0⟩ 0 0 1 0 false true =
      [⟨⟨packIndex true false 0 0, 0, 2, 0⟩, 0 - 1, 3 * Real.pi / 4 + 1⟩] ∧
    Real.pi < 3 * Real.pi / 4 + 1 := by
  refine ⟨pv_softwrap_eq, ?_⟩
  have := Real.pi_lt_315
  linarith

/-- C6 (amended): for a nonnegative softness, every interval stored in the
bin buffer lies within `[-(PI + softness), PI + softness]`; more precisely
the start never exceeds `PI` and the end is never below `-PI`.  The raw
(pre-widening) slice bounds always lie in `[-PI, PI]`, and widening can
overstep `PI` or `-PI` by at most the softness. -/
theorem C6_interval_bounds (ring : List (Vec2 ℝ)) (pos : Vec2 ℝ) (sv idx : ℕ)
    (soft dist : ℝ) (rev poly : Bool) (hsoft : 0 ≤ soft) :
    ∀ e ∈ push_vertices ring pos sv idx soft dist rev poly,
      -(Real.pi + soft) ≤ e.startAngle ∧ e.startAngle ≤ Real.pi ∧
        -Real.pi ≤ e.endAngle ∧ e.endAngle ≤ Real.pi + soft :=
  push_vertices_interval ring pos sv idx soft dist rev poly hsoft

/-- C6 (witness): the amended bounds applied to the concrete softness-1
emission. -/
theorem C6_witness :
    (0 : ℝ) ≤ 1 ∧
    (-(Real.pi + 1) ≤ ((0 : ℝ) - 1) ∧ ((0 : ℝ) - 1) ≤ Real.pi ∧
      -Real.pi ≤ 3 * Real.pi / 4 + 1 ∧ 3 * Real.pi / 4 + 1 ≤ Real.pi + 1) := by
  refine ⟨by norm_num, ?_⟩
  have hm : (⟨⟨packIndex true false 0 0, 0, 2, 0⟩, 0 - 1,
      3 * Real.pi / 4 + 1⟩ : BinEntry ℝ) ∈
      push_vertices [⟨1, 0⟩, ⟨-1, 1⟩] ⟨0, 0⟩ 0 0 1 0 false true := by
    rw [pv_softwrap_eq]
    exact List.mem_singleton.mpr rfl
  exact C6_interval_bounds [⟨1, 0⟩, ⟨-1, 1⟩] ⟨0, 0⟩ 0 0 1 0 false true
    (by norm_num) _ hm

/-- C7: for a slice of length at least 2, the stored interval is
`[start - softness, end + softness]` for termination mode 0,
`[start - softness, PI]` with the end exactly `PI` for mode 1, and
`[-PI, end + softness]` with the start exactly `-PI` for mode 2. -/
theorem C7_softness_widening (cfg : SliceCfg ℝ) (s : OccluderSlice ℝ)
    (h : 1 < s.length) :
    (s.term = 0 → pushSlice cfg s =
      [⟨⟨packIndex cfg.poly cfg.rev s.term cfg.occIndex, s.start + cfg.startVertex,
          s.length, cfg.distance⟩,
        s.start_angle - cfg.softness, s.end_angle + cfg.softness⟩]) ∧
    (s.term = 1 → pushSlice cfg s =
      [⟨⟨packIndex cfg.poly cfg.rev s.term cfg.occIndex, s.start + cfg.startVertex,
          s.length, cfg.distance⟩,
        s.start_angle - cfg.softness, cfg.pi⟩]) ∧
    (s.term = 2 → pushSlice cfg s =
      [⟨⟨packIndex cfg.poly cfg.rev s.term cfg.occIndex, s.start + cfg.startVertex,
          s.length, cfg.distance⟩,
        -cfg.pi, s.end_angle + cfg.softness⟩]) :=
  ⟨pushSlice_term0 cfg s h, pushSlice_term1 cfg s h, pushSlice_term2 cfg s h⟩

/-- C7 (witness): the widening equations at softness `0.2` for a concrete
mode-0 slice and a concrete mode-1 slice (whose end remains exactly `PI`). -/
theorem C7_witness :
    pushSlice (⟨Real.pi, 0.2, 0, false, true, 0, 0⟩ : SliceCfg ℝ) ⟨0, 2, 0, 1, 2⟩ =
      [⟨⟨packIndex true false 0 0, 0 + 0, 2, 0⟩, 1 - 0.2, 2 + 0.2⟩] ∧
    pushSlice (⟨Real.pi, 0.2, 0, false, true, 0, 0⟩ : SliceCfg ℝ) ⟨0, 2, 1, 1, 2⟩ =
      [⟨⟨packIndex true false 1 0, 0 + 0, 2, 0⟩, 1 - 0.2, Real.pi⟩] :=
  ⟨(C7_softness_widening _ ⟨0, 2, 0, 1, 2⟩ (by norm_num)).1 rfl,
    (C7_softness_widening _ ⟨0, 2, 1, 1, 2⟩ (by norm_num)).2.1 rfl⟩

/-- C8: a ring with zero or one vertex produces no insertions into the bin
buffer, for every light position, softness, distance and flag combination;
and in general every emitted entry's run length is at least 2 (no run of
length at most 1 is ever emitted). -/
theorem C8_degenerate (ring : List (Vec2 ℝ)) (pos : Vec2 ℝ) (sv idx : ℕ)
    (soft dist : ℝ) (rev poly : Bool) :
    (ring.length ≤ 1 → push_vertices ring pos sv idx soft dist rev poly = []) ∧
    ∀ e ∈ push_vertices ring pos sv idx soft dist rev poly,
      2 ≤ e.pointer.length := by
  constructor
  · intro h
    unfold push_vertices
    dsimp only
    apply sliceWalk_short
    cases rev with
    | false =>
      rw [if_neg (by simp), mkVertices_length]
      exact h
    | true =>
      rw [if_pos rfl, List.length_reverse, mkVertices_length]
      exact h
  · intro e he
    unfold push_vertices at he
    dsimp only at he
    obtain ⟨i, L, w1, w2, hL, -, -, -, hlen, -, -⟩ := sliceWalk_run _ _ e he
    omega

/-- C8 (witness): a concrete one-vertex ring yields no insertions, and the
square ring's single emitted entry has run length at least 2. -/
theorem C8_witness :
    ([⟨0, 0⟩] : List (Vec2 ℝ)).length ≤ 1 ∧
    push_vertices [⟨0, 0⟩] ⟨2, 3⟩ 5 7 0 0 false true = [] ∧
    2 ≤ (⟨⟨packIndex true false 0 0, 3, 2, 0⟩, Real.arctan 9,
        Real.pi - Real.arctan 9⟩ : BinEntry ℝ).pointer.length := by
  refine ⟨by norm_num, (C8_degenerate [⟨0, 0⟩] ⟨2, 3⟩ 5 7 0 0 false true).1
    (by norm_num), ?_⟩
  refine (C8_degenerate [⟨-1, -1⟩, ⟨-1, 1⟩, ⟨1, 1⟩, ⟨1, -1⟩, ⟨-1, -1⟩] ⟨0, -10⟩
    0 0 0 0 false true).2 _ ?_
  rw [pv_square_eq]
  exact List.mem_singleton.mpr rfl

/-- C9: in each frame, the per-light body resets the bin buffer before any
insertion, performs the bulk write exactly once, after all of the light's
occluders have been processed, and the published contents are exactly the
current frame's insertions for that light, independent of whatever the
buffer held before (no carryover).  The trace of buffer operations is
`reset`, then the adds in order, then a single `write`. -/
theorem C9_frame_discipline (entriesFor : ℝ → ExtractedOccluder → List (BinEntry ℝ))
    (camera_rect : Rect) (cfg_softness : Option ℝ) (light : ExtractedPointLight)
    (occluders : List ExtractedOccluder) (bins : BinBuffer ℝ) :
    (processLight entriesFor camera_rect cfg_softness light occluders bins).1.written =
        some (lightAdds entriesFor camera_rect cfg_softness light occluders) ∧
      (processLight entriesFor camera_rect cfg_softness light occluders bins).2 =
        BinEvent.reset ::
          ((lightAdds entriesFor camera_rect cfg_softness light occluders).map
              BinEvent.add ++ [BinEvent.write]) := by
  unfold processLight lightAdds
  dsimp only
  rw [processLight_fold]
  simp [BinBuffer.reset, BinBuffer.write]

/-- C10: when two consecutive vertices have exactly equal angles relative to
the light, the walk takes the wrapping branch rather than the extending one:
the current run is extended by the current vertex and emitted with
termination mode 1, and a fresh two-vertex run of mode 2 is started at the
previous vertex. -/
theorem C10_equal_angles (cfg : SliceCfg ℝ) (st : WalkState ℝ) (l v : Vertex ℝ)
    (hlast : st.last = some l) (hlen : 1 ≤ st.slice.length)
    (heq : v.angle = l.angle) :
    sliceStep cfg st v =
      (⟨some v, ⟨l.index, 2, 2, l.angle, v.angle⟩⟩,
        [⟨⟨packIndex cfg.poly cfg.rev 1 cfg.occIndex,
            st.slice.start + cfg.startVertex, st.slice.length + 1, cfg.distance⟩,
          st.slice.start_angle - cfg.softness, cfg.pi⟩]) := by
  obtain ⟨lastOpt, s⟩ := st
  obtain rfl : lastOpt = some l := hlast
  dsimp only at hlen heq ⊢
  rw [sliceStep_eq_angle cfg s l v heq (by omega)]
  rw [pushSlice_term1 _ _ (by dsimp only; omega) rfl]

/-- C10 (witness): the equal-angle step at a concrete state where both the
previous and the current vertex have angle 1. -/
theorem C10_witness :
    sliceStep (⟨Real.pi, 0, 0, false, true, 0, 0⟩ : SliceCfg ℝ)
        ⟨some ⟨0, 1⟩, ⟨0, 1, 0, 1, 1⟩⟩ ⟨1, 1⟩ =
      (⟨some ⟨1, 1⟩, ⟨0, 2, 2, 1, 1⟩⟩,
        [⟨⟨packIndex true false 1 0, 0 + 0, 1 + 1, 0⟩, 1 - 0, Real.pi⟩]) :=
  C10_equal_angles ⟨Real.pi, 0, 0, false, true, 0, 0⟩
    ⟨some ⟨0, 1⟩, ⟨0, 1, 0, 1, 1⟩⟩ ⟨0, 1⟩ ⟨1, 1⟩ rfl (le_refl 1) rfl

end Firefly
